import Mathlib

/-!
Verification of the stardicter core (`stardicter/base.py`): a shallow
embedding of the StarDict writer's pure logic — text conversion, key
sorting, index/dictionary serialization, checksum computation, the
checksum cache, and source-line parsing — together with theorems about
the properties the specification states for them.

Python strings are modelled as `List Char`; byte strings as `List Nat`
(each element a byte value).  Python dicts are modelled as association
lists with first-match lookup and in-place update.
-/

namespace Stardicter

/-- UTF-8 encoding of a single character, as byte values
(models Python's `unicode.encode('utf-8')` character by character). -/
def utf8Char (c : Char) : List Nat :=
  let n := c.toNat
  if n < 128 then [n]
  else if n < 2048 then [192 + n / 64, 128 + n % 64]
  else if n < 65536 then [224 + n / 4096, 128 + (n / 64) % 64, 128 + n % 64]
  else [240 + n / 262144, 128 + (n / 4096) % 64, 128 + (n / 64) % 64, 128 + n % 64]

/-- UTF-8 encoding of a string (models `text.encode('utf-8')`). -/
def encodeStr (s : List Char) : List Nat :=
  s.flatMap utf8Char

/-- Python 2 `str.lower()` on a byte string: only the ASCII bytes
`A`..`Z` (65..90) are mapped to lowercase; all other bytes unchanged. -/
def bytesLower (bs : List Nat) : List Nat :=
  bs.map (fun b => if 65 ≤ b ∧ b ≤ 90 then b + 32 else b)

/-- Lexicographic short-lex-free comparison of lists (Python list/str
comparison): `[] ≤ anything`; otherwise compare heads, ties recurse. -/
def lexLe {α : Type} [LinearOrder α] : List α → List α → Bool
  | [], _ => true
  | _ :: _, [] => false
  | a :: as, b :: bs => if a < b then true else if b < a then false else lexLe as bs

theorem lexLe_refl {α : Type} [LinearOrder α] (l : List α) : lexLe l l = true := by
  induction l with
  | nil => rfl
  | cons a as ih => simp [lexLe, lt_irrefl, ih]

theorem lexLe_total {α : Type} [LinearOrder α] :
    ∀ l₁ l₂ : List α, lexLe l₁ l₂ = true ∨ lexLe l₂ l₁ = true
  | [], _ => Or.inl rfl
  | _ :: _, [] => Or.inr rfl
  | a :: as, b :: bs => by
    rcases lt_trichotomy a b with h | h | h
    · exact Or.inl (by simp [lexLe, h])
    · subst h
      rcases lexLe_total as bs with h' | h'
      · exact Or.inl (by simp [lexLe, lt_irrefl, h'])
      · exact Or.inr (by simp [lexLe, lt_irrefl, h'])
    · exact Or.inr (by simp [lexLe, h])

theorem lexLe_antisymm {α : Type} [LinearOrder α] :
    ∀ {l₁ l₂ : List α}, lexLe l₁ l₂ = true → lexLe l₂ l₁ = true → l₁ = l₂
  | [], [], _, _ => rfl
  | [], _ :: _, _, h₂ => by simp [lexLe] at h₂
  | _ :: _, [], h₁, _ => by simp [lexLe] at h₁
  | a :: as, b :: bs, h₁, h₂ => by
    rcases lt_trichotomy a b with h | h | h
    · simp [lexLe, h, asymm h] at h₂
    · subst h
      simp only [lexLe, lt_irrefl, if_false] at h₁ h₂
      exact congrArg (a :: ·) (lexLe_antisymm h₁ h₂)
    · simp [lexLe, h, asymm h] at h₁

theorem lexLe_trans {α : Type} [LinearOrder α] :
    ∀ {l₁ l₂ l₃ : List α}, lexLe l₁ l₂ = true → lexLe l₂ l₃ = true → lexLe l₁ l₃ = true
  | [], _, _, _, _ => rfl
  | _ :: _, [], _, h₁, _ => by simp [lexLe] at h₁
  | _ :: _, _ :: _, [], _, h₂ => by simp [lexLe] at h₂
  | a :: as, b :: bs, c :: cs, h₁, h₂ => by
    rcases lt_trichotomy a b with hab | hab | hab
    · rcases lt_trichotomy b c with hbc | hbc | hbc
      · simp [lexLe, lt_trans hab hbc]
      · subst hbc; simp [lexLe, hab]
      · simp [lexLe, hbc, asymm hbc] at h₂
    · subst hab
      simp only [lexLe, lt_irrefl, if_false] at h₁
      rcases lt_trichotomy a c with hac | hac | hac
      · simp [lexLe, hac]
      · subst hac
        simp only [lexLe, lt_irrefl, if_false] at h₂ ⊢
        exact lexLe_trans h₁ h₂
      · simp [lexLe, asymm hac, hac] at h₂
    · simp [lexLe, hab, asymm hab] at h₁

/-- Comparison of the `(sortkey, item)` tuples built by `getsortedwords`,
exactly Python's tuple comparison: first components (byte strings)
compared lexicographically, ties broken by the second component. -/
def pairLe (x y : List Nat × List Char) : Bool :=
  if x.1 = y.1 then lexLe x.2 y.2 else lexLe x.1 y.1

/-- `pairLe` as a relation, for `List.insertionSort`. -/
def pairRel (x y : List Nat × List Char) : Prop := pairLe x y = true

instance : DecidableRel pairRel :=
  fun x y => inferInstanceAs (Decidable (pairLe x y = true))

instance : IsTotal (List Nat × List Char) pairRel := by
  constructor
  intro x y
  unfold pairRel pairLe
  by_cases h : x.1 = y.1
  · simp only [h, if_pos rfl, if_true]
    exact lexLe_total x.2 y.2
  · simp only [if_neg h, if_neg (Ne.symm h)]
    exact lexLe_total x.1 y.1

instance : IsAntisymm (List Nat × List Char) pairRel := by
  constructor
  intro x y h₁ h₂
  unfold pairRel pairLe at h₁ h₂
  by_cases h : x.1 = y.1
  · rw [if_pos h] at h₁
    rw [if_pos h.symm] at h₂
    exact Prod.ext h (lexLe_antisymm h₁ h₂)
  · rw [if_neg h] at h₁
    rw [if_neg (Ne.symm h)] at h₂
    exact absurd (lexLe_antisymm h₁ h₂) h

instance : IsTrans (List Nat × List Char) pairRel := by
  constructor
  intro x y z h₁ h₂
  unfold pairRel pairLe at h₁ h₂ ⊢
  by_cases hxy : x.1 = y.1 <;> by_cases hyz : y.1 = z.1
  · rw [if_pos hxy] at h₁
    rw [if_pos hyz] at h₂
    rw [if_pos (hxy.trans hyz)]
    exact lexLe_trans h₁ h₂
  · rw [if_neg (fun h => hyz (hxy.symm.trans h))]
    rw [if_neg hyz] at h₂
    rw [hxy]
    exact h₂
  · rw [if_neg (fun h => hxy (h.trans hyz.symm))]
    rw [if_neg hxy] at h₁
    rw [← hyz]
    exact h₁
  · rw [if_neg hxy] at h₁
    rw [if_neg hyz] at h₂
    by_cases hxz : x.1 = z.1
    · exact absurd (lexLe_antisymm h₁ (hxz ▸ h₂)) hxy
    · rw [if_neg hxz]
      exact lexLe_trans h₁ h₂

/-- `StardictWriter.getsortedwords`: builds the list of tuples
`(item.encode('utf-8').lower(), item)`, sorts it, and projects the
items back out.  Note the sort key lowercases the encoded bytes. -/
def getsortedwords (words : List (List Char)) : List (List Char) :=
  ((words.map (fun item => (bytesLower (encodeStr item), item))).insertionSort pairRel).map
    (fun p => p.2)

/-- Modelled from the spec: `pyLower` is Python's `unicode.lower()` (the
spec's "lowercasing is applied to the string"), restricted to ASCII and
the Latin-1 uppercase letters, which covers every character used below.
`U+00C0`..`U+00DE` except `×` (`U+00D7`) map to the codepoint 32 higher. -/
def pyLower (c : Char) : Char :=
  if 65 ≤ c.toNat ∧ c.toNat ≤ 90 then Char.ofNat (c.toNat + 32)
  else if 192 ≤ c.toNat ∧ c.toNat ≤ 222 ∧ c.toNat ≠ 215 then Char.ofNat (c.toNat + 32)
  else c

/-- Modelled from the spec: the ordering key as the spec's words state it —
"lowercasing is applied to the string and the ordering key is the byte
encoding of the lowercased string" (lowercase first, then UTF-8 encode). -/
def specSortKey (s : List Char) : List Nat := encodeStr (s.map pyLower)

/-- The ordering key actually computed by `getsortedwords`:
`item.encode('utf-8').lower()` — UTF-8 encode first, then ASCII-only
byte lowercasing. -/
def codeSortKey (s : List Char) : List Nat := bytesLower (encodeStr s)

/-- C2 (counterexample): the claim's ordering key (string lowercased, then
encoded) does not describe the code.  On the key set `{"É", "è"}` the code
returns `["É", "è"]` (its byte key leaves the non-ASCII bytes of `"É"`
untouched, and `0xC389 < 0xC3A8`), yet the spec's key orders `"É"` after
`"è"` (`lower "É" = "é"` encodes to `0xC3A9 > 0xC3A8`), so the output is
not sorted by the claimed key. -/
theorem getsortedwords_spec_order_counterexample :
    getsortedwords [['É'], ['è']] = [['É'], ['è']] ∧
    lexLe (specSortKey ['É']) (specSortKey ['è']) = false ∧
    lexLe (codeSortKey ['É']) (codeSortKey ['è']) = true := by decide

theorem getsortedwords_perm (l : List (List Char)) : (getsortedwords l).Perm l := by
  unfold getsortedwords
  have h1 := (List.perm_insertionSort pairRel
    (l.map (fun item => (bytesLower (encodeStr item), item)))).map
      (fun p : List Nat × List Char => p.2)
  simpa [List.map_map, Function.comp_def] using h1

/-- C2 (amended): `getsortedwords` returns every key of the input exactly
once, ordered by byte-wise comparison of the ASCII-byte-lowercased UTF-8
encoding of each key, and the result is the same for any permutation of
the input. -/
theorem getsortedwords_sorted (l : List (List Char)) (hl : l.Nodup) :
    (getsortedwords l).Perm l ∧ (getsortedwords l).Nodup ∧
    (getsortedwords l).Pairwise (fun x y => lexLe (codeSortKey x) (codeSortKey y) = true) ∧
    ∀ l', l.Perm l' → getsortedwords l = getsortedwords l' := by
  refine ⟨getsortedwords_perm l, ((getsortedwords_perm l).nodup_iff).mpr hl, ?_, ?_⟩
  · unfold getsortedwords
    rw [List.pairwise_map]
    have hsorted := List.sorted_insertionSort pairRel
      (l.map (fun item => (bytesLower (encodeStr item), item)))
    have hmem : ∀ p ∈ (l.map (fun item => (bytesLower (encodeStr item), item))).insertionSort
        pairRel, p.1 = codeSortKey p.2 := by
      intro p hp
      rw [List.mem_insertionSort] at hp
      rcases List.mem_map.mp hp with ⟨item, _, rfl⟩
      rfl
    refine List.Pairwise.imp_of_mem ?_ hsorted
    intro p q hp hq hrel
    rw [← hmem p hp, ← hmem q hq]
    unfold pairRel pairLe at hrel
    by_cases h : p.1 = q.1
    · rw [h]
      exact lexLe_refl q.1
    · rwa [if_neg h] at hrel
  · intro l' hperm
    unfold getsortedwords
    congr 1
    refine List.eq_of_perm_of_sorted ?_ (List.sorted_insertionSort pairRel _)
      (List.sorted_insertionSort pairRel _)
    exact (List.perm_insertionSort pairRel _).trans
      ((hperm.map _).trans (List.perm_insertionSort pairRel _).symm)

/-- C2 (witness for `getsortedwords_sorted`). -/
theorem getsortedwords_sorted_witness :
    (getsortedwords [['b'], ['A']]).Perm [['b'], ['A']] ∧
    (getsortedwords [['b'], ['A']]).Nodup ∧
    (getsortedwords [['b'], ['A']]).Pairwise
      (fun x y => lexLe (codeSortKey x) (codeSortKey y) = true) ∧
    ∀ l', List.Perm [['b'], ['A']] l' →
      getsortedwords [['b'], ['A']] = getsortedwords l' :=
  getsortedwords_sorted [['b'], ['A']] (by decide)

/-- Lookup in a Python dict modelled as an association list:
`m[k]` as an `Option` (first matching key wins). -/
def dget {κ ν : Type} [DecidableEq κ] : List (κ × ν) → κ → Option ν
  | [], _ => none
  | p :: rest, k => if p.1 = k then some p.2 else dget rest k

/-- Python dict assignment `m[k] = v`: replace the value at an existing
key, or append a fresh binding. -/
def dset {κ ν : Type} [DecidableEq κ] : List (κ × ν) → κ → ν → List (κ × ν)
  | [], k, v => [(k, v)]
  | p :: rest, k, v => if p.1 = k then (k, v) :: rest else p :: dset rest k v

/-- Python `dict.update(changes)`: assign every binding of `changes`
into the dict, in order. -/
def dupdate {κ ν : Type} [DecidableEq κ] (m changes : List (κ × ν)) : List (κ × ν) :=
  changes.foldl (fun acc p => dset acc p.1 p.2) m

theorem dget_mem {κ ν : Type} [DecidableEq κ] :
    ∀ {m : List (κ × ν)} {k : κ} {v : ν}, dget m k = some v → (k, v) ∈ m
  | [], _, _, h => by simp [dget] at h
  | p :: rest, k, v, h => by
    by_cases hk : p.1 = k
    · rw [dget, if_pos hk] at h
      rcases Option.some_inj.mp h with rfl
      subst hk
      exact List.mem_cons_self _ _
    · rw [dget, if_neg hk] at h
      exact List.mem_cons_of_mem p (dget_mem h)

theorem dget_dset_self {κ ν : Type} [DecidableEq κ] :
    ∀ (m : List (κ × ν)) (k : κ) (v : ν), dget (dset m k v) k = some v
  | [], k, v => by simp [dget, dset]
  | p :: rest, k, v => by
    by_cases hk : p.1 = k
    · rw [dset, if_pos hk, dget, if_pos rfl]
    · rw [dset, if_neg hk, dget, if_neg hk]
      exact dget_dset_self rest k v

theorem dget_dset_ne {κ ν : Type} [DecidableEq κ] :
    ∀ (m : List (κ × ν)) (k k' : κ) (v : ν), k ≠ k' → dget (dset m k v) k' = dget m k'
  | [], k, k', v, hne => by simp [dget, dset, hne]
  | p :: rest, k, k', v, hne => by
    by_cases hk : p.1 = k
    · rw [dset, if_pos hk, dget, if_neg hne, dget, if_neg (hk ▸ hne)]
    · rw [dset, if_neg hk, dget, dget]
      by_cases hk' : p.1 = k'
      · rw [if_pos hk', if_pos hk']
      · rw [if_neg hk', if_neg hk']
        exact dget_dset_ne rest k k' v hne

/-- Drop characters up to and including the first `>` (the tail of one
match of the non-greedy `STRIPTAGS = re.compile(r"<.*?>", re.DOTALL)`). -/
def dropTag : List Char → List Char
  | [] => []
  | c :: rest => if c = '>' then rest else dropTag rest

theorem dropTag_length (l : List Char) : (dropTag l).length ≤ l.length := by
  induction l with
  | nil => exact Nat.le_refl 0
  | cons c rest ih =>
    by_cases h : c = '>'
    · simp [dropTag, h]
    · simp only [dropTag, if_neg h]
      exact Nat.le_succ_of_le ih

theorem dropTag_sublist (l : List Char) : (dropTag l).Sublist l := by
  induction l with
  | nil => exact List.Sublist.refl []
  | cons c rest ih =>
    by_cases h : c = '>'
    · simp [dropTag, h]
    · simp only [dropTag, if_neg h]
      exact ih.cons c

/-- `STRIPTAGS.sub('', text)`: delete every non-greedy match of
`<.*?>` (DOTALL), scanning left to right.  A `<` with some later `>`
starts a match that ends at the first `>` after it; any other
character is kept. -/
def striptags : List Char → List Char
  | [] => []
  | c :: rest =>
    if c = '<' ∧ '>' ∈ rest then striptags (dropTag rest)
    else c :: striptags rest
termination_by l => l.length
decreasing_by
  · exact Nat.lt_succ_of_le (dropTag_length rest)
  · exact Nat.lt_succ_self rest.length

/-- Whether the text still contains a `<` followed (anywhere later) by
a `>` — i.e. whether `STRIPTAGS` has a match. -/
def hasTag : List Char → Bool
  | [] => false
  | c :: rest => if c = '<' ∧ '>' ∈ rest then true else hasTag rest

theorem striptags_nil : striptags [] = [] := by rw [striptags]

theorem striptags_sublist (l : List Char) : (striptags l).Sublist l := by
  induction l using striptags.induct with
  | case1 => rw [striptags_nil]
  | case2 c rest h ih =>
    rw [striptags, if_pos h]
    exact (ih.trans (dropTag_sublist rest)).cons c
  | case3 c rest h ih =>
    rw [striptags, if_neg h]
    exact ih.cons₂ c

theorem hasTag_striptags (l : List Char) : hasTag (striptags l) = false := by
  induction l using striptags.induct with
  | case1 => rw [striptags_nil]; rfl
  | case2 c rest h ih => rw [striptags, if_pos h]; exact ih
  | case3 c rest h ih =>
    rw [striptags, if_neg h]
    show (if c = '<' ∧ '>' ∈ striptags rest then true else hasTag (striptags rest)) = false
    rw [if_neg, ih]
    rintro ⟨rfl, hmem⟩
    exact h ⟨rfl, (striptags_sublist rest).mem hmem⟩

theorem striptags_of_hasTag_eq_false {l : List Char} (h : hasTag l = false) :
    striptags l = l := by
  induction l with
  | nil => rw [striptags_nil]
  | cons c rest ih =>
    have hcond : ¬(c = '<' ∧ '>' ∈ rest) := by
      intro hc
      rw [hasTag, if_pos hc] at h
      exact Bool.noConfusion h
    rw [hasTag, if_neg hcond] at h
    rw [striptags, if_neg hcond, ih h]

theorem striptags_idem (l : List Char) : striptags (striptags l) = striptags l :=
  striptags_of_hasTag_eq_false (hasTag_striptags l)

/-- Modelled from the spec: the repository's `deaccent` codec error
handler (registered outside this file's source) transliterates each
non-ASCII character to an ASCII-only replacement, dropping characters
with no reasonable equivalent; ASCII characters are encoded directly
and never reach the handler. -/
def deaccentTable : List (Char × Char) :=
  [('á', 'a'), ('é', 'e'), ('í', 'i'), ('ó', 'o'), ('ú', 'u'),
   ('ý', 'y'), ('č', 'c'), ('ď', 'd'), ('ě', 'e'), ('ň', 'n'),
   ('ř', 'r'), ('š', 's'), ('ť', 't'), ('ů', 'u'), ('ž', 'z'),
   ('Á', 'A'), ('É', 'E'), ('Č', 'C'), ('Š', 'S'), ('Ž', 'Z')]

/-- Replacement for one non-ASCII character: the table's ASCII
approximation when there is one, else the character is dropped. -/
def deaccentChar (c : Char) : List Char :=
  match dget deaccentTable c with
  | some d => [d]
  | none => []

/-- `text.encode('ascii', 'deaccent')`: ASCII characters pass through,
non-ASCII characters are replaced via the `deaccent` error handler. -/
def toAscii (l : List Char) : List Char :=
  l.flatMap (fun c => if c.toNat < 128 then [c] else deaccentChar c)

theorem deaccentChar_ascii (c : Char) : ∀ d ∈ deaccentChar c, d.toNat < 128 := by
  intro d hd
  unfold deaccentChar at hd
  cases htab : dget deaccentTable c with
  | none => rw [htab] at hd; exact absurd hd (List.not_mem_nil d)
  | some e =>
    rw [htab] at hd
    rcases List.mem_singleton.mp hd with rfl
    have hmem := dget_mem htab
    have hall : deaccentTable.all (fun p => decide (p.2.toNat < 128)) = true := by decide
    have := List.all_eq_true.mp hall _ hmem
    exact of_decide_eq_true this

theorem toAscii_ascii (l : List Char) : ∀ c ∈ toAscii l, c.toNat < 128 := by
  intro c hc
  unfold toAscii at hc
  rcases List.mem_flatMap.mp hc with ⟨a, _, hmem⟩
  by_cases h : a.toNat < 128
  · rw [if_pos h] at hmem
    rcases List.mem_singleton.mp hmem with rfl
    exact h
  · rw [if_neg h] at hmem
    exact deaccentChar_ascii a c hmem

theorem toAscii_of_ascii {l : List Char} (h : ∀ c ∈ l, c.toNat < 128) :
    toAscii l = l := by
  induction l with
  | nil => rfl
  | cons c rest ih =>
    have hc : c.toNat < 128 := h c (List.mem_cons_self c rest)
    show (if c.toNat < 128 then [c] else deaccentChar c) ++ toAscii rest = c :: rest
    rw [if_pos hc, ih (fun d hd => h d (List.mem_cons_of_mem c hd))]
    rfl

theorem toAscii_idem (l : List Char) : toAscii (toAscii l) = toAscii l :=
  toAscii_of_ascii (toAscii_ascii l)

/-- `StardictWriter.convert`: apply ASCII transliteration when the
`ascii` flag is set, then tag stripping when the `notags` flag is set. -/
def convert (a n : Bool) (text : List Char) : List Char :=
  let t1 := if a then toAscii text else text
  if n then striptags t1 else t1

/-- C4: `convert` is idempotent for every text and every combination of
the `ascii` and `notags` flags. -/
theorem convert_idempotent (a n : Bool) (t : List Char) :
    convert a n (convert a n t) = convert a n t := by
  cases a <;> cases n
  · rfl
  · exact striptags_idem t
  · exact toAscii_idem t
  · show striptags (toAscii (striptags (toAscii t))) = striptags (toAscii t)
    rw [toAscii_of_ascii (fun c hc => toAscii_ascii t c ((striptags_sublist _).mem hc))]
    exact striptags_idem (toAscii t)

/-- One record of the `.idx` artifact as lines 213-216 of the source
mean to emit it: the null-terminated converted key bytes, then the
entry's byte offset and byte length in the `.dict` blob. -/
structure IndexRec where
  keyBytes : List Nat
  offset : Nat
  len : Nat
deriving DecidableEq

/-- Result of `StardictWriter.write_words` when it completes: the index
records and the `.dict` blob, and the `wordcount` and `idxfilesize`
values written to the `.ifo` metadata file. -/
structure WriteResult where
  records : List IndexRec
  blob : List Nat
  wordcount : Nat
  idxfilesize : Nat
deriving DecidableEq

/-- `StardictWriter.write_words`: iterates `getsortedwords(words)` with
`offset = 0`.  The first statement of the loop body evaluates
`wlist[key]` (line 207), but `wlist` is bound nowhere — the parameter
is named `words`, and no local, global or import supplies `wlist` — so
the first iteration raises `NameError` before anything is written for
that entry; the `struct.pack('!I', ...)` calls on lines 215-216 would
likewise fail, since `struct` is never imported.  A raised exception
is modelled as `none`.  Only the empty word map skips the loop body:
it writes no records and an empty blob, and the `.ifo` metadata gets
`wordcount = 0` (the untouched loop counter) and
`idxfilesize = idxf.tell() = 0`. -/
def write_words (wmap : List (List Char × List Char)) : Option WriteResult :=
  match getsortedwords (wmap.map Prod.fst) with
  | [] => some ⟨[], [], 0, 0⟩
  | _ :: _ => none

/-- C1 (code_bug): the claimed index-record invariants are unreachable —
for every non-empty word map (here `{"a": "x"}`) `write_words` raises
`NameError` on the unbound `wlist` in its first loop iteration and
writes no index record at all; the only completing run is the empty
word map, which writes no records and an empty blob. -/
theorem write_words_index_records_unreachable :
    write_words [(['a'], ['x'])] = none ∧
    write_words [] = some ⟨[], [], 0, 0⟩ :=
  ⟨rfl, rfl⟩

/-- C3 (code_bug): the claimed count equalities are unreachable for
non-empty input — for every non-empty word map (here `{"k": "v"}`)
`write_words` raises `NameError` on the unbound `wlist` before `count`
is ever incremented or the `.ifo` metadata written; only the empty
word map completes, with `wordcount = 0 = len(W)`, zero index records
and `idxfilesize = 0`. -/
theorem write_words_counts_unreachable :
    write_words [(['k'], ['v'])] = none ∧
    write_words [] =
      some ⟨([] : List IndexRec), ([] : List Nat),
        ([] : List (List Char × List Char)).length, 0⟩ :=
  ⟨rfl, rfl⟩

/-- The byte stream fed to the digest: the `md5.update(line)` calls in
`get_checksum` concatenate the kept lines in order. -/
def concatAll (ls : List (List Char)) : List Char :=
  ls.foldl (fun acc l => acc ++ l) []

theorem foldl_append_eq : ∀ (ls : List (List Char)) (acc : List Char),
    ls.foldl (fun a l => a ++ l) acc = acc ++ ls.foldl (fun a l => a ++ l) []
  | [], acc => by simp
  | l :: ls, acc => by
    rw [List.foldl_cons, List.foldl_cons, foldl_append_eq ls (acc ++ l),
      foldl_append_eq ls ([] ++ l)]
    simp [List.append_assoc]

theorem concatAll_cons (l : List Char) (ls : List (List Char)) :
    concatAll (l :: ls) = l ++ concatAll ls := by
  unfold concatAll
  rw [List.foldl_cons, foldl_append_eq]
  simp

theorem concatAll_append (as bs : List (List Char)) :
    concatAll (as ++ bs) = concatAll as ++ concatAll bs := by
  unfold concatAll
  rw [List.foldl_append, foldl_append_eq]

/-- `StardictWriter.get_checksum`: feed each line passing
`is_data_line` into the digest accumulator in order and hex-encode the
result.  The digest (`hashlib.md5` + `hexdigest`) is an external
library, abstracted as the function `md5hex` applied to the
concatenation of the fed lines; `is_data_line` is the subclass hook
(the base class keeps every line), abstracted as the predicate `p`. -/
def get_checksum (md5hex : List Char → List Char) (p : List Char → Bool)
    (lines : List (List Char)) : List Char :=
  md5hex (concatAll (lines.filter p))

/-- C5: `get_checksum` is a deterministic function of the sequence of
lines surviving the filter; changing a filtered-out line (filtered
before and after the change) leaves the checksum unchanged; changing a
kept line to a different kept line changes the checksum (given an
injective digest). -/
theorem get_checksum_stability (md5hex : List Char → List Char) (p : List Char → Bool)
    (l1 l2 pre suf : List (List Char)) (x0 y0 x1 y1 : List Char)
    (hfilt : l1.filter p = l2.filter p)
    (hx0 : p x0 = false) (hy0 : p y0 = false)
    (hx1 : p x1 = true) (hy1 : p y1 = true) (hne : x1 ≠ y1)
    (hinj : Function.Injective md5hex) :
    get_checksum md5hex p l1 = get_checksum md5hex p l2 ∧
    get_checksum md5hex p (pre ++ x0 :: suf) = get_checksum md5hex p (pre ++ y0 :: suf) ∧
    get_checksum md5hex p (pre ++ x1 :: suf) ≠ get_checksum md5hex p (pre ++ y1 :: suf) := by
  refine ⟨?_, ?_, ?_⟩
  · unfold get_checksum
    rw [hfilt]
  · unfold get_checksum
    rw [List.filter_append, List.filter_append, List.filter_cons, List.filter_cons,
      hx0, hy0]
    simp
  · unfold get_checksum
    intro heq
    have h2 := hinj heq
    rw [List.filter_append, List.filter_append, List.filter_cons, List.filter_cons,
      hx1, hy1] at h2
    simp only [if_true] at h2
    rw [concatAll_append, concatAll_append, concatAll_cons, concatAll_cons] at h2
    have h3 := List.append_cancel_left h2
    exact hne (List.append_cancel_right h3)

/-- C5 (witness for `get_checksum_stability`): identity digest, the
predicate keeping only one-character lines. -/
theorem get_checksum_stability_witness :
    get_checksum (fun s => s) (fun l => decide (l.length ≤ 1)) [['a']] =
      get_checksum (fun s => s) (fun l => decide (l.length ≤ 1)) [['a']] ∧
    get_checksum (fun s => s) (fun l => decide (l.length ≤ 1)) ([['p']] ++ ['a', 'b'] :: [['s']]) =
      get_checksum (fun s => s) (fun l => decide (l.length ≤ 1)) ([['p']] ++ ['c', 'd'] :: [['s']]) ∧
    get_checksum (fun s => s) (fun l => decide (l.length ≤ 1)) ([['p']] ++ ['a'] :: [['s']]) ≠
      get_checksum (fun s => s) (fun l => decide (l.length ≤ 1)) ([['p']] ++ ['b'] :: [['s']]) :=
  get_checksum_stability (fun s => s) (fun l => decide (l.length ≤ 1)) [['a']] [['a']]
    [['p']] [['s']] ['a', 'b'] ['c', 'd'] ['a'] ['b'] rfl (by decide) (by decide)
    (by decide) (by decide) (by decide) (fun u v huv => huv)

/-- `StardictWriter.was_changed` applied to a loaded checksum record:
`True` when the package key is absent, else whether the current
checksum differs from the stored one. -/
def was_changed (config : List (List Char × List Char)) (key checksum : List Char) : Bool :=
  match dget config key with
  | none => true
  | some v => decide (checksum ≠ v)

/-- `StardictWriter.save_config`: load the record, `update` it with the
changes, and persist the result (the returned value is the record as
persisted). -/
def save_config (stored changes : List (List Char × List Char)) :
    List (List Char × List Char) :=
  dupdate stored changes

/-- `StardictWriter.save_checksum`: store the current checksum under
the package key. -/
def save_checksum (stored : List (List Char × List Char)) (key checksum : List Char) :
    List (List Char × List Char) :=
  save_config stored [(key, checksum)]

/-- C6: `was_changed` is true iff the package key is absent from the
loaded record or the stored value differs from the current checksum; it
is true when the key has never been stored, false immediately after
`save_checksum` stored the matching checksum, and true again for a
different checksum. -/
theorem was_changed_spec (stored config cfg : List (List Char × List Char))
    (key c c' ck : List Char)
    (hnone : dget config key = none) (hne : c' ≠ c) :
    (was_changed cfg key ck = true ↔
      (dget cfg key = none ∨ ∃ v, dget cfg key = some v ∧ v ≠ ck)) ∧
    was_changed config key c = true ∧
    was_changed (save_checksum stored key c) key c = false ∧
    was_changed (save_checksum stored key c) key c' = true := by
  have hset : dget (save_checksum stored key c) key = some c := by
    show dget (dset stored key c) key = some c
    exact dget_dset_self stored key c
  refine ⟨?_, ?_, ?_, ?_⟩
  · unfold was_changed
    cases hc : dget cfg key with
    | none => simp
    | some v =>
      constructor
      · intro h
        exact Or.inr ⟨v, rfl, Ne.symm (of_decide_eq_true h)⟩
      · rintro (h | ⟨w, hw, hwne⟩)
        · exact absurd h (by simp)
        · rcases Option.some_inj.mp hw with rfl
          exact decide_eq_true (Ne.symm hwne)
  · unfold was_changed
    rw [hnone]
  · unfold was_changed
    rw [hset]
    simp
  · unfold was_changed
    rw [hset]
    exact decide_eq_true hne

/-- C6 (witness for `was_changed_spec`). -/
theorem was_changed_spec_witness :
    (was_changed [(['k'], ['x'])] ['k'] ['y'] = true ↔
      (dget [(['k'], ['x'])] ['k'] = none ∨
        ∃ v, dget [(['k'], ['x'])] ['k'] = some v ∧ v ≠ ['y'])) ∧
    was_changed [] ['k'] ['1'] = true ∧
    was_changed (save_checksum [(['a'], ['b'])] ['k'] ['1']) ['k'] ['1'] = false ∧
    was_changed (save_checksum [(['a'], ['b'])] ['k'] ['1']) ['k'] ['2'] = true :=
  was_changed_spec [(['a'], ['b'])] [] [(['k'], ['x'])] ['k'] ['1'] ['2'] ['y']
    rfl (by decide)

/-- `StardictWriter.load_config`: the `open(CONFIGFILE)` call sits
outside the `try`, so a missing cache file (modelled as `none`) raises
an uncaught `IOError` (modelled as `Except.error ()`); only the
`ValueError` from `json.load` on an unparsable file (modelled by the
external JSON parser returning `none`) is caught and turned into `{}`. -/
def load_config (jsonParse : List Char → Option (List (List Char × List Char)))
    (file : Option (List Char)) : Except Unit (List (List Char × List Char)) :=
  match file with
  | none => Except.error ()
  | some content =>
    match jsonParse content with
    | some cfg => Except.ok cfg
    | none => Except.ok []

/-- C7: a syntactically invalid cache file is recovered as the empty
record, but a missing cache file makes `load_config` surface an error
to the caller — the `IOError` from `open` is outside the `try`, so the
claim's "missing file is treated as an empty record" fails on the
code. -/
theorem load_config_missing_file_errors
    (jsonParse : List Char → Option (List (List Char × List Char))) (s : List Char)
    (hs : jsonParse s = none) :
    load_config jsonParse none = Except.error () ∧
    load_config jsonParse (some s) = Except.ok [] := by
  refine ⟨rfl, ?_⟩
  have hunfold : load_config jsonParse (some s) =
      match jsonParse s with
      | some cfg => Except.ok cfg
      | none => Except.ok [] := rfl
  rw [hunfold, hs]

/-- C7 (witness for `load_config_missing_file_errors`). -/
theorem load_config_missing_file_errors_witness :
    load_config (fun _ => none) none = Except.error () ∧
    load_config (fun _ => none) (some ['x']) = Except.ok [] :=
  load_config_missing_file_errors (fun _ => none) ['x'] rfl

theorem dget_eq_none_of_not_mem_keys {κ ν : Type} [DecidableEq κ] :
    ∀ {m : List (κ × ν)} {k : κ}, k ∉ m.map Prod.fst → dget m k = none
  | [], _, _ => rfl
  | p :: rest, k, h => by
    rw [List.map_cons] at h
    have hne : p.1 ≠ k := fun he => h (List.mem_cons.mpr (Or.inl he.symm))
    have h2 : k ∉ rest.map Prod.fst := fun hm => h (List.mem_cons.mpr (Or.inr hm))
    rw [dget, if_neg hne]
    exact dget_eq_none_of_not_mem_keys h2

theorem dget_dupdate_of_none {κ ν : Type} [DecidableEq κ] :
    ∀ (changes m : List (κ × ν)) (k : κ), dget changes k = none →
      dget (dupdate m changes) k = dget m k
  | [], _, _, _ => rfl
  | p :: rest, m, k, h => by
    have hne : p.1 ≠ k := by
      intro he
      rw [dget, if_pos he] at h
      exact Option.noConfusion h
    rw [dget, if_neg hne] at h
    show dget (dupdate (dset m p.1 p.2) rest) k = dget m k
    rw [dget_dupdate_of_none rest (dset m p.1 p.2) k h, dget_dset_ne m p.1 k p.2 hne]

theorem dget_dupdate_of_some {κ ν : Type} [DecidableEq κ] :
    ∀ (changes m : List (κ × ν)) (k : κ) (v : ν),
      (changes.map Prod.fst).Nodup → dget changes k = some v →
      dget (dupdate m changes) k = some v
  | [], _, _, _, _, h => by simp [dget] at h
  | p :: rest, m, k, v, hnd, h => by
    rw [List.map_cons, List.nodup_cons] at hnd
    obtain ⟨hp, hnd'⟩ := hnd
    by_cases hk : p.1 = k
    · subst hk
      rw [dget, if_pos rfl] at h
      rcases Option.some_inj.mp h with rfl
      show dget (dupdate (dset m p.1 p.2) rest) p.1 = some p.2
      rw [dget_dupdate_of_none rest _ _ (dget_eq_none_of_not_mem_keys hp)]
      exact dget_dset_self m p.1 p.2
    · rw [dget, if_neg hk] at h
      show dget (dupdate (dset m p.1 p.2) rest) k = some v
      exact dget_dupdate_of_some rest (dset m p.1 p.2) k v hnd' h

/-- C8: `save_config` has merge semantics — every key absent from the
partial record keeps its previously stored value in the persisted
record, and every key present in the partial record takes the partial
record's value. -/
theorem save_config_merge (stored changes : List (List Char × List Char))
    (k v : List Char) (hnd : (changes.map Prod.fst).Nodup) :
    (dget changes k = none → dget (save_config stored changes) k = dget stored k) ∧
    (dget changes k = some v → dget (save_config stored changes) k = some v) := by
  constructor
  · intro h
    exact dget_dupdate_of_none changes stored k h
  · intro h
    exact dget_dupdate_of_some changes stored k v hnd h

/-- C8 (witness for `save_config_merge`). -/
theorem save_config_merge_witness :
    (dget [(['b'], ['3'])] ['a'] = none →
      dget (save_config [(['a'], ['1']), (['b'], ['2'])] [(['b'], ['3'])]) ['a'] =
        dget [(['a'], ['1']), (['b'], ['2'])] ['a']) ∧
    (dget [(['b'], ['3'])] ['a'] = some ['9'] →
      dget (save_config [(['a'], ['1']), (['b'], ['2'])] [(['b'], ['3'])]) ['a'] =
        some ['9']) :=
  save_config_merge [(['a'], ['1']), (['b'], ['2'])] [(['b'], ['3'])] ['a'] ['9'] (by decide)

/-- Python `line.split(':')`: split the line at every colon (no limit);
a line with no colon yields one field, a line with `k` colons yields
`k + 1` fields. -/
def splitColon : List Char → List (List Char)
  | [] => [[]]
  | c :: rest =>
    if c = ':' then [] :: splitColon rest
    else
      match splitColon rest with
      | [] => [[c]]
      | p :: ps => (c :: p) :: ps

theorem splitColon_ne_nil : ∀ l : List Char, splitColon l ≠ []
  | [] => by simp [splitColon]
  | c :: rest => by
    unfold splitColon
    by_cases h : c = ':'
    · simp [h]
    · rw [if_neg h]
      cases hs : splitColon rest with
      | nil => simp
      | cons p ps => simp

theorem splitColon_length : ∀ l : List Char, (splitColon l).length = l.count ':' + 1
  | [] => rfl
  | c :: rest => by
    unfold splitColon
    by_cases h : c = ':'
    · subst h
      rw [if_pos rfl, List.length_cons, splitColon_length rest, List.count_cons_self]
    · rw [if_neg h]
      cases hs : splitColon rest with
      | nil => exact absurd hs (splitColon_ne_nil rest)
      | cons p ps =>
        have hlen := splitColon_length rest
        rw [hs, List.length_cons] at hlen
        rw [List.length_cons, List.count_cons_of_ne (fun he => h he.symm), hlen]

/-- The loop of `StardictWriter.parse`: for each line,
`word, translation = line.split(':')` (a `ValueError` unless the split
yields exactly two fields, modelled as `Except.error ()`), then
`self.words[word] = translation` and `self.reverse[translation] = word`. -/
def parseLines : List (List Char) → List (List Char × List Char) →
    List (List Char × List Char) →
    Except Unit (List (List Char × List Char) × List (List Char × List Char))
  | [], words, rev => Except.ok (words, rev)
  | line :: rest, words, rev =>
    match splitColon line with
    | [word, tr] => parseLines rest (dset words word tr) (dset rev tr word)
    | _ => Except.error ()

/-- `StardictWriter.parse`, starting from empty forward and reverse
word maps. -/
def parse (lines : List (List Char)) :
    Except Unit (List (List Char × List Char) × List (List Char × List Char)) :=
  parseLines lines [] []

theorem parseLines_error_of_bad_line :
    ∀ (lines : List (List Char)) (line : List Char)
      (words rev : List (List Char × List Char)),
      line ∈ lines → (splitColon line).length ≠ 2 →
      parseLines lines words rev = Except.error ()
  | [], line, _, _, hmem, _ => absurd hmem (List.not_mem_nil line)
  | l0 :: rest, line, words, rev, hmem, hbad => by
    rw [parseLines]
    rcases List.mem_cons.mp hmem with rfl | hmem'
    · split
      case h_1 word tr heq => exact absurd (by rw [heq]; rfl) hbad
      case h_2 => rfl
    · split
      case h_1 word tr heq =>
        exact parseLines_error_of_bad_line rest line _ _ hmem' hbad
      case h_2 => rfl

/-- C9: `parse` fails fast on a line with no `:` separator — the whole
parse returns an error instead of a partial word map. -/
theorem parse_missing_separator (lines : List (List Char)) (line : List Char)
    (hmem : line ∈ lines) (hcol : ':' ∉ line) :
    parse lines = Except.error () := by
  apply parseLines_error_of_bad_line lines line [] [] hmem
  rw [splitColon_length line, List.count_eq_zero.mpr hcol]
  omega

/-- C9 (witness for `parse_missing_separator`). -/
theorem parse_missing_separator_witness :
    parse [['a', 'b']] = Except.error () :=
  parse_missing_separator [['a', 'b']] ['a', 'b'] (by decide) (by decide)

/-- C10: `parse` also errors on a line with two or more `:` separators —
the two-way unpacking of `line.split(':')` fails for three or more
fields. -/
theorem parse_multiple_separators (lines : List (List Char)) (line : List Char)
    (hmem : line ∈ lines) (hcol : 2 ≤ line.count ':') :
    parse lines = Except.error () := by
  apply parseLines_error_of_bad_line lines line [] [] hmem
  rw [splitColon_length line]
  omega

/-- C10 (witness for `parse_multiple_separators`): the line `a:b:c`. -/
theorem parse_multiple_separators_witness :
    parse [['a', ':', 'b', ':', 'c']] = Except.error () :=
  parse_multiple_separators [['a', ':', 'b', ':', 'c']] ['a', ':', 'b', ':', 'c']
    (by decide) (by decide)

end Stardicter
